import Mathlib

/-!
Verification of the sequential Bayesian-optimization driver of
ProcessOptimizer (`gp_minimize` and the components it delegates to).

The repository source available is `ProcessOptimizer/optimizer/gp.py`,
containing the entry point `gp_minimize`, which marshals parameters and
delegates to `base_minimize`.  The driver loop, acquisition evaluator,
acquisition optimizer and hedge bandit live outside this file; they are
modelled here from the specification (each such definition's doc comment
says so).  `gp_minimize` itself is embedded from the source.

Conventions of the embedding:
* points and objective values are integers (the search space's encoded
  representation is abstracted to `ℤ`);
* the random generator is a single explicitly threaded state (`ℕ`); each
  draw returns the current state and advances it by one — this models the
  spec's "single shared random-generator instance threaded through the
  whole run";
* a fallible objective is `ℤ → Except ℕ ℤ` (the error payload is a code);
* the driver returns `Except RunError OptResult`; an objective failure
  carries the partial run state so that the accumulated observations
  remain queryable, as §7 of the specification requires.
-/

namespace ProcessOptimizer

/-- An observation: a point of the search space together with the objective
value recorded for it.  Modelled from the spec: §3 "Observation". -/
structure Obs where
  point : ℤ
  value : ℤ
  deriving DecidableEq, Repr

/-- An objective function: takes a point, returns a value or raises. -/
abbrev Objective := ℤ → Except ℕ ℤ

/-- An objective that never raises, built from a total value function. -/
def pureObj (g : ℤ → ℤ) : Objective := fun p => Except.ok (g p)

/-- Internal driver state: the observation history, the log of points the
objective has been invoked on (in order), the surrogate snapshots (a
snapshot is the history prefix the surrogate was fit on), the current
random-generator state, and whether an early stop was signalled.
Modelled from the spec: §3 "ObservationHistory", "SurrogateState",
"OptimizationResult". -/
structure RunState where
  hist : List Obs
  calls : List ℤ
  models : List (List Obs)
  rng : ℕ
  stopped : Bool
  deriving DecidableEq, Repr

/-- Draw one value from the run's random generator, advancing its state.
All randomness of the run flows through this single function. -/
def drawRng (st : RunState) : ℕ × RunState :=
  (st.rng, ⟨st.hist, st.calls, st.models, st.rng + 1, st.stopped⟩)

/-- Invoke the objective at one point.  On success the observation is
appended to the history; on failure nothing is appended and the error is
returned together with the partial state (the failed invocation is still
logged).  Modelled from the spec: §4.1 "an objective evaluation that
raises is NOT caught — it propagates immediately, leaving the
ObservationHistory consistent up to the last successful observation". -/
def evalAt (f : Objective) (st : RunState) (p : ℤ) :
    Except (ℕ × RunState) RunState :=
  match f p with
  | Except.error e =>
      Except.error (e, ⟨st.hist, st.calls ++ [p], st.models, st.rng, st.stopped⟩)
  | Except.ok v =>
      Except.ok ⟨st.hist ++ [⟨p, v⟩], st.calls ++ [p], st.models, st.rng, st.stopped⟩

/-- Evaluate a list of user-supplied points in order, aborting at the first
failure.  Modelled from the spec: §4.1 initial-point resolution, the
`x0`-without-`y0` branch. -/
def evalList (f : Objective) : List ℤ → RunState → Except (ℕ × RunState) RunState
  | [], st => Except.ok st
  | p :: ps, st =>
      match evalAt f st p with
      | Except.error e => Except.error e
      | Except.ok st' => evalList f ps st'

/-- Draw `n` random points from the space (each point consumes one draw of
the shared generator, decoded by `sample`) and evaluate each in order.
Modelled from the spec: §4.1 "draw `n_random_starts` points uniformly at
random from the space and evaluate those". -/
def randomPhase (f : Objective) (sample : ℕ → ℤ) :
    ℕ → RunState → Except (ℕ × RunState) RunState
  | 0, st => Except.ok st
  | n + 1, st =>
      let d := drawRng st
      match evalAt f d.2 (sample d.1) with
      | Except.error e => Except.error e
      | Except.ok st' => randomPhase f sample n st'

/-- One round of the guided loop, iterated `budget` times: refit the
surrogate on the full current history (recording the snapshot), obtain a
candidate from the acquisition machinery (`propose`, consuming one draw of
the shared generator), evaluate the objective there, append the
observation, then invoke the callback and stop early if it signals so.
Modelled from the spec: §4.1 "Guided-iteration loop" steps 1–5. -/
def guidedPhase (f : Objective) (propose : List Obs → ℕ → ℤ)
    (cb : List Obs → Bool) :
    ℕ → RunState → Except (ℕ × RunState) RunState
  | 0, st => Except.ok st
  | b + 1, st =>
      let st0 : RunState := ⟨st.hist, st.calls, st.models ++ [st.hist], st.rng, st.stopped⟩
      let d := drawRng st0
      match evalAt f d.2 (propose st.hist d.1) with
      | Except.error e => Except.error e
      | Except.ok st' =>
          if cb st'.hist then
            Except.ok ⟨st'.hist, st'.calls, st'.models, st'.rng, true⟩
          else guidedPhase f propose cb b st'

/-- Configuration of a run: total budget `n_calls`, number of random
initial points, user-supplied initial points `x0` and (optionally) their
precomputed values `y0`.  Modelled from the spec: §4.1 contract. -/
structure Config where
  n_calls : ℕ
  n_random_starts : ℕ
  x0 : List ℤ
  y0 : Option (List ℤ)
  deriving DecidableEq, Repr

/-- Errors of a run: an invalid configuration (raised before any
evaluation), or an objective failure carrying the error code and the
partial run state accumulated so far.  Modelled from the spec: §7 error
taxonomy. -/
inductive RunError where
  | configuration : RunError
  | objectiveErr : ℕ → RunState → RunError
  deriving DecidableEq, Repr

/-- The observation with the least value (first such on ties), the driver's
"best seen".  Junk default on an empty history. -/
def bestObs : List Obs → Obs
  | [] => ⟨0, 0⟩
  | o :: rest => rest.foldl (fun b n => if n.value < b.value then n else b) o

/-- The result of a completed (or early-stopped) run: best point `x`, best
value, the full trace in evaluation order, the surrogate snapshots, the
final random-generator state, whether an early stop occurred, and the log
of objective invocations.  Modelled from the spec: §3 and §6
"OptimizationResult" (the Python attribute `fun` is `fun_val` here, `fun`
being a Lean keyword). -/
structure OptResult where
  x : ℤ
  fun_val : ℤ
  x_iters : List ℤ
  func_vals : List ℤ
  models : List (List Obs)
  rng_final : ℕ
  stopped : Bool
  call_log : List ℤ
  deriving DecidableEq, Repr

/-- Freeze a final run state into the returned result. -/
def mkResult (st : RunState) : OptResult :=
  ⟨(bestObs st.hist).point, (bestObs st.hist).value,
    st.hist.map Obs.point, st.hist.map Obs.value,
    st.models, st.rng, st.stopped, st.calls⟩

/-- Validity of a configuration (its violation is the spec's
`ConfigurationError`): the guided budget must be non-negative after
subtracting the initial points, and `y0`, when given, must match `x0` in
length.  Modelled from the spec: §7 "ConfigurationError (invalid
combination of x0/y0/n_calls/n_random_starts …) is raised before any
evaluation occurs". -/
def validCfg (cfg : Config) : Prop :=
  match cfg.y0 with
  | none => cfg.x0.length + cfg.n_random_starts ≤ cfg.n_calls
  | some ys => ys.length = cfg.x0.length ∧ cfg.n_random_starts ≤ cfg.n_calls

instance (cfg : Config) : Decidable (validCfg cfg) := by
  unfold validCfg
  cases cfg.y0 <;> infer_instance

/-- Number of guided iterations a run of configuration `cfg` performs when
neither an error nor an early stop cuts it short. -/
def guidedCount (cfg : Config) : ℕ :=
  match cfg.y0 with
  | none => cfg.n_calls - cfg.x0.length - cfg.n_random_starts
  | some _ => cfg.n_calls - cfg.n_random_starts

/-- The optimization driver.  Modelled from the spec: §4.1
`run(objective, space, …) -> OptimizationResult`: resolve the initial
points (three-way policy on `x0`/`y0`), then run the guided loop on the
remaining budget; configuration errors fail fast, objective failures
propagate with the partial state attached. -/
def base_minimize (f : Objective) (sample : ℕ → ℤ) (propose : List Obs → ℕ → ℤ)
    (cb : List Obs → Bool) (cfg : Config) (rng0 : ℕ) :
    Except RunError OptResult :=
  if validCfg cfg then
    let st0 : RunState := ⟨[], [], [], rng0, false⟩
    let init : Except (ℕ × RunState) RunState :=
      match cfg.y0 with
      | none => evalList f cfg.x0 st0
      | some ys =>
          Except.ok ⟨List.zipWith Obs.mk cfg.x0 ys, [], [], rng0, false⟩
    match init with
    | Except.error e => Except.error (RunError.objectiveErr e.1 e.2)
    | Except.ok st1 =>
        match randomPhase f sample cfg.n_random_starts st1 with
        | Except.error e => Except.error (RunError.objectiveErr e.1 e.2)
        | Except.ok st2 =>
            match guidedPhase f propose cb (guidedCount cfg) st2 with
            | Except.error e => Except.error (RunError.objectiveErr e.1 e.2)
            | Except.ok st3 => Except.ok (mkResult st3)
  else Except.error RunError.configuration

/-! ### Acquisition evaluator

Modelled from the spec: §4.2.  The predictive posterior is abstracted to a
mean `mu`, a standard deviation `sigma` and the best value seen `y_best`,
all rationals; the standard normal cdf `Phi` and pdf `phi` are passed as
function parameters (their defining Gaussian properties appear as
hypotheses of the theorems that need them). -/

/-- Expected-improvement score (negated, minimization convention).
Modelled from the spec: §4.2 "EI: `-(y_best - μ(x) - xi) * Φ(z) - σ(x) *
φ(z)` with `z = (y_best - μ(x) - xi) / σ(x)` when `σ(x) > 0`, else `0`". -/
def gaussian_ei (Phi phi : ℚ → ℚ) (mu sigma y_best xi : ℚ) : ℚ :=
  if sigma = 0 then 0
  else
    let z := (y_best - mu - xi) / sigma;
    -((y_best - mu - xi) * Phi z) - sigma * phi z

/-- Probability-of-improvement score (negated).  Modelled from the spec:
§4.2 "PI: `-Φ(z)` with the same `z` as EI", else `0` at zero std. -/
def gaussian_pi (Phi : ℚ → ℚ) (mu sigma y_best xi : ℚ) : ℚ :=
  if sigma = 0 then 0 else -Phi ((y_best - mu - xi) / sigma)

/-- Lower-confidence-bound score.  Modelled from the spec: §4.2 "LCB:
`μ(x) - kappa * σ(x)`". -/
def gaussian_lcb (mu sigma kappa : ℚ) : ℚ := mu - kappa * sigma

/-! ### Hedge bandit

Modelled from the spec: §4.4.  The gain vector is a list of rationals, one
per base strategy; the exponential of the softmax is passed as a positive
function parameter `E`. -/

/-- The gain vector at run start: one zero per base strategy.  Modelled
from the spec: §4.4 "`gains` the per-strategy running score vector,
initialized to all-zero at run start". -/
def initGains (n : ℕ) : List ℚ := List.replicate n 0

/-- Softmax weights of a score vector, with `E` standing for the
exponential.  Modelled from the spec: §4.4 "probabilities
`softmax(eta * gains)`". -/
def softmax (E : ℚ → ℚ) (xs : List ℚ) : List ℚ :=
  (xs.map E).map (fun w => w / (xs.map E).sum)

/-- Sample an index from a categorical distribution given by a probability
vector `ps` and a uniform draw `u`: the first index whose cumulative
probability exceeds `u`. -/
def pickIndex : List ℚ → ℚ → ℕ
  | [], _ => 0
  | [_], _ => 0
  | p :: ps, u => if u < p then 0 else pickIndex ps (u - p) + 1

/-- One guided-iteration step of the hedge bandit: select the winning
strategy index by a categorical draw with probabilities
`softmax (eta • gains)` (using the uniform draw `u`), and update every
strategy's gain by subtracting the surrogate-predicted mean at that
strategy's own proposed candidate.  Modelled from the spec: §4.4 steps
2–3. -/
def hedgeStep (E : ℚ → ℚ) (eta : ℚ) (mu : ℤ → ℚ)
    (proposals : List ℤ) (gains : List ℚ) (u : ℚ) : ℕ × List ℚ :=
  (pickIndex (softmax E (gains.map (fun g => eta * g))) u,
   List.zipWith (fun g X => g - mu X) gains proposals)

/-! ### Acquisition optimizer

Modelled from the spec: §4.3.  Candidate points, the acquisition score and
the bounded local optimizer are abstracted; the result carries the number
of local-optimizer invocations so that the categorical fallback ("no local
gradient optimizer is ever invoked") is observable. -/

/-- A search-space dimension kind. -/
inductive Dim where
  | real : Dim
  | integer : Dim
  | categorical : Dim
  deriving DecidableEq, Repr

/-- A search space: its list of dimension kinds. -/
structure Space where
  dims : List Dim
  deriving DecidableEq, Repr

/-- Whether any dimension of the space is categorical.  Modelled from the
spec: §6 "SearchSpace … reports whether any dimension is categorical
(drives the gradient-restart fallback)". -/
def Space.hasCategorical (s : Space) : Bool :=
  s.dims.any (fun d => d = Dim.categorical)

/-- The two acquisition-optimization backends. -/
inductive AcqOptKind where
  | sampling : AcqOptKind
  | lbfgs : AcqOptKind
  deriving DecidableEq, Repr

/-- Resolution of `acq_optimizer="auto"`: sampling when the space has a
categorical dimension, gradient-restart otherwise.  Embedded from
`gp.py` lines 116–118 (docstring of the delegated behaviour). -/
def resolveAuto (s : Space) : AcqOptKind :=
  if s.hasCategorical then AcqOptKind.sampling else AcqOptKind.lbfgs

/-- First element minimizing `score` (ties to the earlier element). -/
def argminBy (score : ℤ → ℚ) : List ℤ → ℤ
  | [] => 0
  | c :: cs => cs.foldl (fun b n => if score n < score b then n else b) c

/-- Run the acquisition optimizer: the sampling backend returns the
best-scoring of the drawn candidates; the gradient-restart backend takes
the `nRestarts` lowest-scoring candidates as start points, runs the
bounded local optimizer from each and returns the best local optimum.
Whenever the space contains a categorical dimension the gradient-restart
backend falls back to pure sampling.  The second component counts
local-optimizer invocations.  Modelled from the spec: §4.3. -/
def run_acq_optimizer (backend : AcqOptKind) (s : Space) (score : ℤ → ℚ)
    (cands : List ℤ) (localOpt : ℤ → ℤ) (nRestarts : ℕ) : ℤ × ℕ :=
  if backend = AcqOptKind.sampling ∨ s.hasCategorical then
    (argminBy score cands, 0)
  else
    let starts := (cands.mergeSort (fun a b => decide (score a ≤ score b))).take nRestarts
    (argminBy score (starts.map localOpt), starts.length)

/-! ### The `gp_minimize` entry point

Embedded from the source, `ProcessOptimizer/optimizer/gp.py` lines
212–231: create the generator from `random_state`; when `base_estimator`
is `None`, draw one integer with `rng.randint(0, np.iinfo(np.int32).max)`
to seed the default GP estimator; delegate to `base_minimize`, passing the
(possibly advanced) generator.  The delegation is represented by returning
the estimator, the generator state and the number of draws made, i.e. the
arguments `base_minimize` receives. -/

/-- A surrogate estimator, identified by the seed it was cooked with. -/
structure Estimator where
  seed : ℕ
  deriving DecidableEq, Repr

/-- The value `np.iinfo(np.int32).max`. -/
def int32_max : ℕ := 2 ^ 31 - 1

/-- Model of `numpy.random.RandomState.randint(0, hi)`: returns a value
below `hi` and advances the generator state by one draw. -/
def randint (hi : ℕ) (s : ℕ) : ℕ × ℕ := (s % hi, s + 1)

/-- Model of `sklearn.utils.check_random_state` on an integer seed: the
generator state seeded from it. -/
def check_random_state (seed : ℕ) : ℕ := seed

/-- Model of `cook_estimator("GP", space, random_state, noise)` (external
collaborator, out of scope per spec §1): the default estimator carrying
the seed drawn for it. -/
def cook_estimator (seed : ℕ) : Estimator := ⟨seed⟩

/-- Embedded from the source (`gp.py` lines 212–231): the estimator and
generator state handed to `base_minimize`, together with the number of
generator draws `gp_minimize` itself performed. -/
def gp_minimize (base_estimator : Option Estimator) (random_state : ℕ) :
    Estimator × ℕ × ℕ :=
  let rng := check_random_state random_state
  match base_estimator with
  | none =>
      let d := randint int32_max rng
      (cook_estimator d.1, d.2, 1)
  | some e => (e, rng, 0)

/-- The sequence of `n` raw draws a run makes starting from generator
state `s` (the generator advances by one per draw). -/
def drawSeq (s n : ℕ) : List ℕ := List.range' s n

/-! ### Phase lemmas: behaviour on a never-failing objective -/

theorem evalList_pure (g : ℤ → ℤ) : ∀ (ps : List ℤ) (st : RunState),
    evalList (pureObj g) ps st =
      Except.ok ⟨st.hist ++ ps.map (fun p => ⟨p, g p⟩), st.calls ++ ps,
        st.models, st.rng, st.stopped⟩ := by
  intro ps
  induction ps with
  | nil => intro st; simp [evalList]
  | cons p ps ih =>
      intro st
      simp [evalList, evalAt, pureObj, ih]

theorem randomPhase_pure (g : ℤ → ℤ) (sample : ℕ → ℤ) :
    ∀ (n : ℕ) (st : RunState),
    randomPhase (pureObj g) sample n st =
      Except.ok ⟨st.hist ++ (List.range' st.rng n).map
          (fun r => ⟨sample r, g (sample r)⟩),
        st.calls ++ (List.range' st.rng n).map sample,
        st.models, st.rng + n, st.stopped⟩ := by
  intro n
  induction n with
  | zero => intro st; simp [randomPhase]
  | succ n ih =>
      intro st
      have hstep : randomPhase (pureObj g) sample (n + 1) st =
          randomPhase (pureObj g) sample n
            ⟨st.hist ++ [⟨sample st.rng, g (sample st.rng)⟩],
              st.calls ++ [sample st.rng], st.models, st.rng + 1, st.stopped⟩ := rfl
      rw [hstep, ih]
      simp [List.range'_succ, List.append_assoc, Nat.add_assoc, Nat.add_comm 1 n]

theorem guidedPhase_zero (f : Objective) (propose : List Obs → ℕ → ℤ)
    (cb : List Obs → Bool) (st : RunState) :
    guidedPhase f propose cb 0 st = Except.ok st := rfl

theorem guidedPhase_pure_succ (g : ℤ → ℤ) (propose : List Obs → ℕ → ℤ)
    (cb : List Obs → Bool) (b : ℕ) (st : RunState) :
    guidedPhase (pureObj g) propose cb (b + 1) st =
      (if cb (st.hist ++ [⟨propose st.hist st.rng, g (propose st.hist st.rng)⟩]) then
        Except.ok ⟨st.hist ++ [⟨propose st.hist st.rng, g (propose st.hist st.rng)⟩],
          st.calls ++ [propose st.hist st.rng],
          st.models ++ [st.hist], st.rng + 1, true⟩
      else
        guidedPhase (pureObj g) propose cb b
          ⟨st.hist ++ [⟨propose st.hist st.rng, g (propose st.hist st.rng)⟩],
            st.calls ++ [propose st.hist st.rng],
            st.models ++ [st.hist], st.rng + 1, st.stopped⟩) := rfl

theorem guidedPhase_pure_noStop (g : ℤ → ℤ) (propose : List Obs → ℕ → ℤ) :
    ∀ (b : ℕ) (st : RunState), ∃ ext : List Obs, ∃ snaps : List (List Obs),
    guidedPhase (pureObj g) propose (fun _ => false) b st =
      Except.ok ⟨st.hist ++ ext, st.calls ++ ext.map Obs.point,
        st.models ++ snaps, st.rng + b, st.stopped⟩ ∧
      ext.length = b ∧ snaps.length = b ∧
      (∀ o ∈ ext, o.value = g o.point) := by
  intro b
  induction b with
  | zero =>
      intro st
      exact ⟨[], [], by simp [guidedPhase_zero], rfl, rfl, by simp⟩
  | succ b ih =>
      intro st
      obtain ⟨ext, snaps, heq, hlen, hslen, hval⟩ :=
        ih ⟨st.hist ++ [⟨propose st.hist st.rng, g (propose st.hist st.rng)⟩],
          st.calls ++ [propose st.hist st.rng],
          st.models ++ [st.hist], st.rng + 1, st.stopped⟩
      refine ⟨⟨propose st.hist st.rng, g (propose st.hist st.rng)⟩ :: ext,
        st.hist :: snaps, ?_, by simp [hlen], by simp [hslen], ?_⟩
      · rw [guidedPhase_pure_succ]
        simp only [if_neg Bool.false_ne_true]
        rw [heq]
        simp [List.append_assoc, Nat.add_assoc, Nat.add_comm 1 b]
      · intro o ho
        rcases List.mem_cons.mp ho with h | h
        · subst h; rfl
        · exact hval o h

theorem guidedPhase_pure_anyCb (g : ℤ → ℤ) (propose : List Obs → ℕ → ℤ)
    (cb : List Obs → Bool) :
    ∀ (b : ℕ) (st : RunState), ∃ ext : List Obs, ∃ snaps : List (List Obs),
      ∃ flag : Bool,
    guidedPhase (pureObj g) propose cb b st =
      Except.ok ⟨st.hist ++ ext, st.calls ++ ext.map Obs.point,
        st.models ++ snaps, st.rng + ext.length, flag⟩ ∧
      ext.length ≤ b ∧ snaps.length = ext.length := by
  intro b
  induction b with
  | zero =>
      intro st
      exact ⟨[], [], st.stopped, by simp [guidedPhase_zero], by simp, rfl⟩
  | succ b ih =>
      intro st
      by_cases hcb : cb (st.hist ++ [⟨propose st.hist st.rng, g (propose st.hist st.rng)⟩]) = true
      · refine ⟨[⟨propose st.hist st.rng, g (propose st.hist st.rng)⟩],
          [st.hist], true, ?_, by simp, by simp⟩
        rw [guidedPhase_pure_succ, if_pos hcb]
        simp
      · obtain ⟨ext, snaps, flag, heq, hlen, hslen⟩ :=
          ih ⟨st.hist ++ [⟨propose st.hist st.rng, g (propose st.hist st.rng)⟩],
            st.calls ++ [propose st.hist st.rng],
            st.models ++ [st.hist], st.rng + 1, st.stopped⟩
        refine ⟨⟨propose st.hist st.rng, g (propose st.hist st.rng)⟩ :: ext,
          st.hist :: snaps, flag, ?_, ?_, by simp [hslen]⟩
        · rw [guidedPhase_pure_succ, if_neg hcb, heq]
          simp [List.append_assoc, Nat.add_assoc, Nat.add_comm 1 ext.length]
        · simp only [List.length_cons]
          omega

/-! ### Phase lemmas: arbitrary (possibly failing) objective -/

theorem evalList_cons (f : Objective) (p : ℤ) (ps : List ℤ) (st : RunState) :
    evalList f (p :: ps) st =
      match evalAt f st p with
      | Except.error e => Except.error e
      | Except.ok st' => evalList f ps st' := rfl

theorem randomPhase_succ (f : Objective) (sample : ℕ → ℤ) (n : ℕ) (st : RunState) :
    randomPhase f sample (n + 1) st =
      match evalAt f ⟨st.hist, st.calls, st.models, st.rng + 1, st.stopped⟩
          (sample st.rng) with
      | Except.error e => Except.error e
      | Except.ok st' => randomPhase f sample n st' := rfl

theorem guidedPhase_succ (f : Objective) (propose : List Obs → ℕ → ℤ)
    (cb : List Obs → Bool) (b : ℕ) (st : RunState) :
    guidedPhase f propose cb (b + 1) st =
      match evalAt f ⟨st.hist, st.calls, st.models ++ [st.hist], st.rng + 1, st.stopped⟩
          (propose st.hist st.rng) with
      | Except.error e => Except.error e
      | Except.ok st' =>
          if cb st'.hist then
            Except.ok ⟨st'.hist, st'.calls, st'.models, st'.rng, true⟩
          else guidedPhase f propose cb b st' := rfl

theorem evalAt_ok_elim (f : Objective) (st st' : RunState) (p : ℤ)
    (h : evalAt f st p = Except.ok st') :
    ∃ v, f p = Except.ok v ∧
      st' = ⟨st.hist ++ [⟨p, v⟩], st.calls ++ [p], st.models, st.rng, st.stopped⟩ := by
  unfold evalAt at h
  cases hfp : f p with
  | error e => rw [hfp] at h; exact absurd h (by simp)
  | ok v =>
      rw [hfp] at h
      exact ⟨v, rfl, (Except.ok.injEq _ _ ▸ h).symm⟩

theorem evalAt_err_elim (f : Objective) (st stE : RunState) (p : ℤ) (e : ℕ)
    (h : evalAt f st p = Except.error (e, stE)) :
    f p = Except.error e ∧
      stE = ⟨st.hist, st.calls ++ [p], st.models, st.rng, st.stopped⟩ := by
  unfold evalAt at h
  cases hfp : f p with
  | error e' =>
      rw [hfp] at h
      simp only [Except.error.injEq, Prod.mk.injEq] at h
      exact ⟨by rw [h.1], h.2.symm⟩
  | ok v => rw [hfp] at h; exact absurd h (by simp)

theorem evalList_len (f : Objective) : ∀ (ps : List ℤ) (st : RunState),
    (∀ st', evalList f ps st = Except.ok st' →
      st'.hist.length = st.hist.length + ps.length ∧
      st'.calls.length = st.calls.length + ps.length ∧
      st'.models = st.models ∧ st'.rng = st.rng ∧ st'.stopped = st.stopped) ∧
    (∀ e stE, evalList f ps st = Except.error (e, stE) →
      ∃ j, j + 1 ≤ ps.length ∧
        stE.hist.length = st.hist.length + j ∧
        stE.calls.length = st.calls.length + j + 1) := by
  intro ps
  induction ps with
  | nil =>
      intro st
      constructor
      · intro st' h
        simp only [evalList] at h
        cases h
        simp
      · intro e stE h
        exact absurd h (by simp [evalList])
  | cons p ps ih =>
      intro st
      rw [show (p :: ps).length = ps.length + 1 from rfl]
      constructor
      · intro st' h
        rw [evalList_cons] at h
        cases hE : evalAt f st p with
        | error pe => rw [hE] at h; exact absurd h (by simp)
        | ok st1 =>
            rw [hE] at h
            obtain ⟨v, _, hst1⟩ := evalAt_ok_elim f st st1 p hE
            obtain ⟨hh, hc, hm, hr, hs⟩ := (ih st1).1 st' h
            subst hst1
            simp only at hh hc hm hr hs
            refine ⟨?_, ?_, hm, hr, hs⟩ <;> simp [hh, hc] <;> omega
      · intro e stE h
        rw [evalList_cons] at h
        cases hE : evalAt f st p with
        | error pe =>
            rw [hE] at h
            simp only [Except.error.injEq] at h
            obtain ⟨hfe, hstE⟩ := evalAt_err_elim f st stE p e (by rw [hE, h])
            subst hstE
            exact ⟨0, by omega, by simp, by simp⟩
        | ok st1 =>
            rw [hE] at h
            obtain ⟨v, _, hst1⟩ := evalAt_ok_elim f st st1 p hE
            obtain ⟨j, hj, hh, hc⟩ := (ih st1).2 e stE h
            subst hst1
            simp only at hh hc
            refine ⟨j + 1, by omega, ?_, ?_⟩ <;> simp [hh, hc] <;> omega

theorem randomPhase_len (f : Objective) (sample : ℕ → ℤ) :
    ∀ (n : ℕ) (st : RunState),
    (∀ st', randomPhase f sample n st = Except.ok st' →
      st'.hist.length = st.hist.length + n ∧
      st'.calls.length = st.calls.length + n ∧
      st'.models = st.models ∧ st'.rng = st.rng + n ∧ st'.stopped = st.stopped) ∧
    (∀ e stE, randomPhase f sample n st = Except.error (e, stE) →
      ∃ j, j + 1 ≤ n ∧
        stE.hist.length = st.hist.length + j ∧
        stE.calls.length = st.calls.length + j + 1) := by
  intro n
  induction n with
  | zero =>
      intro st
      constructor
      · intro st' h
        simp only [randomPhase] at h
        cases h
        simp
      · intro e stE h
        exact absurd h (by simp [randomPhase])
  | succ n ih =>
      intro st
      constructor
      · intro st' h
        rw [randomPhase_succ] at h
        cases hE : evalAt f ⟨st.hist, st.calls, st.models, st.rng + 1, st.stopped⟩
            (sample st.rng) with
        | error pe => rw [hE] at h; exact absurd h (by simp)
        | ok st1 =>
            rw [hE] at h
            obtain ⟨v, _, hst1⟩ := evalAt_ok_elim f _ st1 _ hE
            obtain ⟨hh, hc, hm, hr, hs⟩ := (ih st1).1 st' h
            subst hst1
            simp only at hh hc hm hr hs
            refine ⟨?_, ?_, hm, ?_, hs⟩ <;> simp [hh, hc, hr] <;> omega
      · intro e stE h
        rw [randomPhase_succ] at h
        cases hE : evalAt f ⟨st.hist, st.calls, st.models, st.rng + 1, st.stopped⟩
            (sample st.rng) with
        | error pe =>
            rw [hE] at h
            simp only [Except.error.injEq] at h
            obtain ⟨hfe, hstE⟩ := evalAt_err_elim f _ stE _ e (by rw [hE, h])
            subst hstE
            exact ⟨0, by omega, by simp, by simp⟩
        | ok st1 =>
            rw [hE] at h
            obtain ⟨v, _, hst1⟩ := evalAt_ok_elim f _ st1 _ hE
            obtain ⟨j, hj, hh, hc⟩ := (ih st1).2 e stE h
            subst hst1
            simp only at hh hc
            refine ⟨j + 1, by omega, ?_, ?_⟩ <;> simp [hh, hc] <;> omega

theorem guidedPhase_err_len (f : Objective) (propose : List Obs → ℕ → ℤ)
    (cb : List Obs → Bool) :
    ∀ (b : ℕ) (st : RunState) (e : ℕ) (stE : RunState),
    guidedPhase f propose cb b st = Except.error (e, stE) →
      ∃ j, j + 1 ≤ b ∧
        stE.hist.length = st.hist.length + j ∧
        stE.calls.length = st.calls.length + j + 1 := by
  intro b
  induction b with
  | zero =>
      intro st e stE h
      exact absurd h (by simp [guidedPhase_zero])
  | succ b ih =>
      intro st e stE h
      rw [guidedPhase_succ] at h
      cases hE : evalAt f ⟨st.hist, st.calls, st.models ++ [st.hist], st.rng + 1, st.stopped⟩
          (propose st.hist st.rng) with
      | error pe =>
          rw [hE] at h
          simp only [Except.error.injEq] at h
          obtain ⟨hfe, hstE⟩ := evalAt_err_elim f _ stE _ e (by rw [hE, h])
          subst hstE
          exact ⟨0, by omega, by simp, by simp⟩
      | ok st1 =>
          rw [hE] at h
          dsimp only at h
          obtain ⟨v, _, hst1⟩ := evalAt_ok_elim f _ st1 _ hE
          by_cases hcb : cb st1.hist = true
          · rw [if_pos hcb] at h
            exact absurd h (by simp)
          · rw [if_neg hcb] at h
            obtain ⟨j, hj, hh, hc⟩ := ih st1 e stE h
            subst hst1
            simp only at hh hc
            refine ⟨j + 1, by omega, ?_, ?_⟩ <;> simp [hh, hc] <;> omega

/-! ### Consistency of the history across objective failures

The invariant is stated relative to a `base`: the observations recorded
before any objective call was made (empty when `y0` is absent, the
`(x0, y0)` pairs when `y0` is given). -/

/-- A run state is consistent with objective `f` over the pre-recorded
prefix `base`: the history is `base` followed by the evaluated
observations, the call log is exactly those evaluated points in order,
and every evaluated observation is a successful evaluation of `f`. -/
def goodState (f : Objective) (base : List Obs) (st : RunState) : Prop :=
  ∃ tail, st.hist = base ++ tail ∧
    st.calls = tail.map Obs.point ∧
    ∀ o ∈ tail, f o.point = Except.ok o.value

/-- State attached to a propagated objective failure with code `e`: the
history is the pre-recorded prefix `base` followed by the successfully
evaluated observations, the call log is those points followed by the
single failing point, and every evaluated observation is complete and
successful. -/
def errState (f : Objective) (e : ℕ) (base : List Obs) (st : RunState) : Prop :=
  ∃ tail p, st.hist = base ++ tail ∧
    st.calls = tail.map Obs.point ++ [p] ∧
    f p = Except.error e ∧
    ∀ o ∈ tail, f o.point = Except.ok o.value

theorem evalAt_good (f : Objective) (base : List Obs) (st : RunState) (p : ℤ)
    (hg : goodState f base st) :
    (∀ st', evalAt f st p = Except.ok st' → goodState f base st') ∧
    (∀ e stE, evalAt f st p = Except.error (e, stE) → errState f e base stE) := by
  obtain ⟨tail, hh, hc, hvalid⟩ := hg
  constructor
  · intro st' h
    obtain ⟨v, hfp, hst'⟩ := evalAt_ok_elim f st st' p h
    subst hst'
    refine ⟨tail ++ [⟨p, v⟩], ?_, ?_, ?_⟩
    · simp [hh, List.append_assoc]
    · simp [hc]
    · intro o ho
      rcases List.mem_append.mp ho with hmem | hmem
      · exact hvalid o hmem
      · rcases List.mem_singleton.mp hmem with rfl
        exact hfp
  · intro e stE h
    obtain ⟨hfp, hstE⟩ := evalAt_err_elim f st stE p e h
    subst hstE
    exact ⟨tail, p, by simp [hh], by simp [hc], hfp, hvalid⟩

theorem evalList_good (f : Objective) (base : List Obs) :
    ∀ (ps : List ℤ) (st : RunState),
    goodState f base st →
    (∀ st', evalList f ps st = Except.ok st' → goodState f base st') ∧
    (∀ e stE, evalList f ps st = Except.error (e, stE) → errState f e base stE) := by
  intro ps
  induction ps with
  | nil =>
      intro st hg
      constructor
      · intro st' h
        simp only [evalList] at h
        cases h
        exact hg
      · intro e stE h
        exact absurd h (by simp [evalList])
  | cons p ps ih =>
      intro st hg
      constructor
      · intro st' h
        rw [evalList_cons] at h
        cases hE : evalAt f st p with
        | error pe => rw [hE] at h; exact absurd h (by simp)
        | ok st1 =>
            rw [hE] at h
            exact (ih st1 ((evalAt_good f base st p hg).1 st1 hE)).1 st' h
      · intro e stE h
        rw [evalList_cons] at h
        cases hE : evalAt f st p with
        | error pe =>
            rw [hE] at h
            simp only [Except.error.injEq] at h
            exact (evalAt_good f base st p hg).2 e stE (by rw [hE, h])
        | ok st1 =>
            rw [hE] at h
            exact (ih st1 ((evalAt_good f base st p hg).1 st1 hE)).2 e stE h

theorem randomPhase_good (f : Objective) (sample : ℕ → ℤ) (base : List Obs) :
    ∀ (n : ℕ) (st : RunState), goodState f base st →
    (∀ st', randomPhase f sample n st = Except.ok st' → goodState f base st') ∧
    (∀ e stE, randomPhase f sample n st = Except.error (e, stE) → errState f e base stE) := by
  intro n
  induction n with
  | zero =>
      intro st hg
      constructor
      · intro st' h
        simp only [randomPhase] at h
        cases h
        exact hg
      · intro e stE h
        exact absurd h (by simp [randomPhase])
  | succ n ih =>
      intro st hg
      have hg' : goodState f base ⟨st.hist, st.calls, st.models, st.rng + 1, st.stopped⟩ := hg
      constructor
      · intro st' h
        rw [randomPhase_succ] at h
        cases hE : evalAt f ⟨st.hist, st.calls, st.models, st.rng + 1, st.stopped⟩
            (sample st.rng) with
        | error pe => rw [hE] at h; exact absurd h (by simp)
        | ok st1 =>
            rw [hE] at h
            exact (ih st1 ((evalAt_good f base _ _ hg').1 st1 hE)).1 st' h
      · intro e stE h
        rw [randomPhase_succ] at h
        cases hE : evalAt f ⟨st.hist, st.calls, st.models, st.rng + 1, st.stopped⟩
            (sample st.rng) with
        | error pe =>
            rw [hE] at h
            simp only [Except.error.injEq] at h
            exact (evalAt_good f base _ _ hg').2 e stE (by rw [hE, h])
        | ok st1 =>
            rw [hE] at h
            exact (ih st1 ((evalAt_good f base _ _ hg').1 st1 hE)).2 e stE h

theorem guidedPhase_good (f : Objective) (propose : List Obs → ℕ → ℤ)
    (cb : List Obs → Bool) (base : List Obs) :
    ∀ (b : ℕ) (st : RunState), goodState f base st →
    (∀ st', guidedPhase f propose cb b st = Except.ok st' → goodState f base st') ∧
    (∀ e stE, guidedPhase f propose cb b st = Except.error (e, stE) → errState f e base stE) := by
  intro b
  induction b with
  | zero =>
      intro st hg
      constructor
      · intro st' h
        rw [guidedPhase_zero] at h
        cases h
        exact hg
      · intro e stE h
        exact absurd h (by simp [guidedPhase_zero])
  | succ b ih =>
      intro st hg
      have hg' : goodState f base ⟨st.hist, st.calls, st.models ++ [st.hist], st.rng + 1, st.stopped⟩ := hg
      constructor
      · intro st' h
        rw [guidedPhase_succ] at h
        cases hE : evalAt f ⟨st.hist, st.calls, st.models ++ [st.hist], st.rng + 1, st.stopped⟩
            (propose st.hist st.rng) with
        | error pe => rw [hE] at h; exact absurd h (by simp)
        | ok st1 =>
            rw [hE] at h
            dsimp only at h
            have hg1 : goodState f base st1 := (evalAt_good f base _ _ hg').1 st1 hE
            by_cases hcb : cb st1.hist = true
            · rw [if_pos hcb] at h
              cases h
              exact hg1
            · rw [if_neg hcb] at h
              exact (ih st1 hg1).1 st' h
      · intro e stE h
        rw [guidedPhase_succ] at h
        cases hE : evalAt f ⟨st.hist, st.calls, st.models ++ [st.hist], st.rng + 1, st.stopped⟩
            (propose st.hist st.rng) with
        | error pe =>
            rw [hE] at h
            simp only [Except.error.injEq] at h
            exact (evalAt_good f base _ _ hg').2 e stE (by rw [hE, h])
        | ok st1 =>
            rw [hE] at h
            dsimp only at h
            have hg1 : goodState f base st1 := (evalAt_good f base _ _ hg').1 st1 hE
            by_cases hcb : cb st1.hist = true
            · rw [if_pos hcb] at h
              exact absurd h (by simp)
            · rw [if_neg hcb] at h
              exact (ih st1 hg1).2 e stE h

/-! ### Best-seen observation -/

theorem foldlMin_mem : ∀ (l : List Obs) (b : Obs),
    l.foldl (fun b n => if n.value < b.value then n else b) b ∈ b :: l := by
  intro l
  induction l with
  | nil => intro b; simp
  | cons a l ih =>
      intro b
      rw [List.foldl_cons]
      by_cases hab : a.value < b.value
      · rw [if_pos hab]
        rcases List.mem_cons.mp (ih a) with h | h
        · exact List.mem_cons.mpr (Or.inr (List.mem_cons.mpr (Or.inl h)))
        · exact List.mem_cons.mpr (Or.inr (List.mem_cons.mpr (Or.inr h)))
      · rw [if_neg hab]
        rcases List.mem_cons.mp (ih b) with h | h
        · exact List.mem_cons.mpr (Or.inl h)
        · exact List.mem_cons.mpr (Or.inr (List.mem_cons.mpr (Or.inr h)))

theorem foldlMin_le : ∀ (l : List Obs) (b : Obs),
    (l.foldl (fun b n => if n.value < b.value then n else b) b).value ≤ b.value ∧
    ∀ o ∈ l, (l.foldl (fun b n => if n.value < b.value then n else b) b).value ≤ o.value := by
  intro l
  induction l with
  | nil => intro b; simp
  | cons a l ih =>
      intro b
      rw [List.foldl_cons]
      by_cases hab : a.value < b.value
      · rw [if_pos hab]
        obtain ⟨h1, h2⟩ := ih a
        refine ⟨le_of_lt (lt_of_le_of_lt h1 hab), ?_⟩
        intro o ho
        rcases List.mem_cons.mp ho with rfl | ho'
        · exact h1
        · exact h2 o ho'
      · rw [if_neg hab]
        obtain ⟨h1, h2⟩ := ih b
        refine ⟨h1, ?_⟩
        intro o ho
        rcases List.mem_cons.mp ho with rfl | ho'
        · exact le_trans h1 (le_of_not_lt hab)
        · exact h2 o ho'

theorem bestObs_mem (l : List Obs) (hl : l ≠ []) : bestObs l ∈ l := by
  cases l with
  | nil => exact absurd rfl hl
  | cons o rest => exact foldlMin_mem rest o

theorem bestObs_le (l : List Obs) : ∀ o ∈ l, (bestObs l).value ≤ o.value := by
  cases l with
  | nil => intro o ho; simp at ho
  | cons a rest =>
      intro o ho
      rcases List.mem_cons.mp ho with rfl | ho'
      · exact (foldlMin_le rest o).1
      · exact (foldlMin_le rest a).2 o ho'

/-! ### Whole-run lemmas -/

/-- The history length a run of configuration `cfg` reaches when neither
an error nor an early stop occurs: `n_calls` objective evaluations, plus
the `x0` observations recorded without an evaluation when `y0` is
given. -/
def expLen (cfg : Config) : ℕ :=
  cfg.n_calls + (match cfg.y0 with | none => 0 | some _ => cfg.x0.length)

theorem base_minimize_pure_none (g : ℤ → ℤ) (sample : ℕ → ℤ)
    (propose : List Obs → ℕ → ℤ) (cfg : Config) (rng0 : ℕ)
    (hy : cfg.y0 = none)
    (hv : cfg.x0.length + cfg.n_random_starts ≤ cfg.n_calls) :
    ∃ ext : List Obs, ∃ snaps : List (List Obs),
    base_minimize (pureObj g) sample propose (fun _ => false) cfg rng0 =
      Except.ok (mkResult
        ⟨(cfg.x0.map (fun p => ⟨p, g p⟩) ++
            (List.range' rng0 cfg.n_random_starts).map
              (fun r => ⟨sample r, g (sample r)⟩)) ++ ext,
          (cfg.x0 ++ (List.range' rng0 cfg.n_random_starts).map sample) ++
            ext.map Obs.point,
          snaps, rng0 + cfg.n_random_starts + guidedCount cfg, false⟩) ∧
    ext.length = guidedCount cfg ∧ snaps.length = guidedCount cfg ∧
    (∀ o ∈ ext, o.value = g o.point) := by
  have hv' : validCfg cfg := by unfold validCfg; rw [hy]; exact hv
  obtain ⟨ext, snaps, hguided, hel, hsl, hval⟩ :=
    guidedPhase_pure_noStop g propose (guidedCount cfg)
      ⟨cfg.x0.map (fun p => ⟨p, g p⟩) ++
          (List.range' rng0 cfg.n_random_starts).map
            (fun r => ⟨sample r, g (sample r)⟩),
        cfg.x0 ++ (List.range' rng0 cfg.n_random_starts).map sample,
        [], rng0 + cfg.n_random_starts, false⟩
  refine ⟨ext, snaps, ?_, hel, hsl, hval⟩
  unfold base_minimize
  rw [if_pos hv', hy]
  dsimp only
  rw [evalList_pure]
  dsimp only
  rw [randomPhase_pure]
  dsimp only
  simp only [List.nil_append]
  rw [hguided]
  simp [List.append_assoc]

theorem base_minimize_pure_some (g : ℤ → ℤ) (sample : ℕ → ℤ)
    (propose : List Obs → ℕ → ℤ) (cfg : Config) (rng0 : ℕ) (ys : List ℤ)
    (hy : cfg.y0 = some ys) (hlen : ys.length = cfg.x0.length)
    (hv : cfg.n_random_starts ≤ cfg.n_calls) :
    ∃ ext : List Obs, ∃ snaps : List (List Obs),
    base_minimize (pureObj g) sample propose (fun _ => false) cfg rng0 =
      Except.ok (mkResult
        ⟨(List.zipWith Obs.mk cfg.x0 ys ++
            (List.range' rng0 cfg.n_random_starts).map
              (fun r => ⟨sample r, g (sample r)⟩)) ++ ext,
          ((List.range' rng0 cfg.n_random_starts).map sample) ++
            ext.map Obs.point,
          snaps, rng0 + cfg.n_random_starts + guidedCount cfg, false⟩) ∧
    ext.length = guidedCount cfg ∧ snaps.length = guidedCount cfg ∧
    (∀ o ∈ ext, o.value = g o.point) := by
  have hv' : validCfg cfg := by unfold validCfg; rw [hy]; exact ⟨hlen, hv⟩
  obtain ⟨ext, snaps, hguided, hel, hsl, hval⟩ :=
    guidedPhase_pure_noStop g propose (guidedCount cfg)
      ⟨List.zipWith Obs.mk cfg.x0 ys ++
          (List.range' rng0 cfg.n_random_starts).map
            (fun r => ⟨sample r, g (sample r)⟩),
        (List.range' rng0 cfg.n_random_starts).map sample,
        [], rng0 + cfg.n_random_starts, false⟩
  refine ⟨ext, snaps, ?_, hel, hsl, hval⟩
  unfold base_minimize
  rw [if_pos hv', hy]
  dsimp only
  rw [randomPhase_pure]
  dsimp only
  simp only [List.nil_append]
  rw [hguided]
  simp [List.append_assoc]

theorem base_minimize_pure_le (g : ℤ → ℤ) (sample : ℕ → ℤ)
    (propose : List Obs → ℕ → ℤ) (cb : List Obs → Bool) (cfg : Config)
    (rng0 : ℕ) (hv : validCfg cfg) :
    ∃ res, base_minimize (pureObj g) sample propose cb cfg rng0 = Except.ok res ∧
      res.x_iters.length ≤ expLen cfg := by
  unfold validCfg at hv
  cases hy : cfg.y0 with
  | none =>
      rw [hy] at hv
      obtain ⟨ext, snaps, flag, hguided, hle, _⟩ :=
        guidedPhase_pure_anyCb g propose cb (guidedCount cfg)
          ⟨cfg.x0.map (fun p => ⟨p, g p⟩) ++
              (List.range' rng0 cfg.n_random_starts).map
                (fun r => ⟨sample r, g (sample r)⟩),
            cfg.x0 ++ (List.range' rng0 cfg.n_random_starts).map sample,
            [], rng0 + cfg.n_random_starts, false⟩
      refine ⟨mkResult
        ⟨(cfg.x0.map (fun p => ⟨p, g p⟩) ++
            (List.range' rng0 cfg.n_random_starts).map
              (fun r => ⟨sample r, g (sample r)⟩)) ++ ext,
          (cfg.x0 ++ (List.range' rng0 cfg.n_random_starts).map sample) ++
            ext.map Obs.point,
          snaps, rng0 + cfg.n_random_starts + ext.length, flag⟩, ?_, ?_⟩
      · unfold base_minimize
        rw [if_pos (show validCfg cfg by unfold validCfg; rw [hy]; exact hv), hy]
        dsimp only
        rw [evalList_pure]
        dsimp only
        rw [randomPhase_pure]
        dsimp only
        simp only [List.nil_append]
        rw [hguided]
        simp [List.append_assoc]
      · have hgc : guidedCount cfg = cfg.n_calls - cfg.x0.length - cfg.n_random_starts := by
          unfold guidedCount; rw [hy]
        simp only [mkResult, expLen, hy]
        simp only [List.length_map, List.length_append, List.length_range']
        omega
  | some ys =>
      rw [hy] at hv
      obtain ⟨ext, snaps, flag, hguided, hle, _⟩ :=
        guidedPhase_pure_anyCb g propose cb (guidedCount cfg)
          ⟨List.zipWith Obs.mk cfg.x0 ys ++
              (List.range' rng0 cfg.n_random_starts).map
                (fun r => ⟨sample r, g (sample r)⟩),
            (List.range' rng0 cfg.n_random_starts).map sample,
            [], rng0 + cfg.n_random_starts, false⟩
      refine ⟨mkResult
        ⟨(List.zipWith Obs.mk cfg.x0 ys ++
            (List.range' rng0 cfg.n_random_starts).map
              (fun r => ⟨sample r, g (sample r)⟩)) ++ ext,
          ((List.range' rng0 cfg.n_random_starts).map sample) ++
            ext.map Obs.point,
          snaps, rng0 + cfg.n_random_starts + ext.length, flag⟩, ?_, ?_⟩
      · unfold base_minimize
        rw [if_pos (show validCfg cfg by unfold validCfg; rw [hy]; exact hv), hy]
        dsimp only
        rw [randomPhase_pure]
        dsimp only
        simp only [List.nil_append]
        rw [hguided]
        simp [List.append_assoc]
      · have hgc : guidedCount cfg = cfg.n_calls - cfg.n_random_starts := by
          unfold guidedCount; rw [hy]
        simp only [mkResult, expLen, hy]
        simp only [List.length_map, List.length_append, List.length_range',
          List.length_zipWith]
        omega

theorem base_minimize_err_len (f : Objective) (sample : ℕ → ℤ)
    (propose : List Obs → ℕ → ℤ) (cb : List Obs → Bool) (cfg : Config)
    (rng0 : ℕ) (e : ℕ) (stE : RunState)
    (h : base_minimize f sample propose cb cfg rng0 =
      Except.error (RunError.objectiveErr e stE)) :
    stE.hist.length < expLen cfg := by
  unfold base_minimize at h
  by_cases hvc : validCfg cfg
  · rw [if_pos hvc] at h
    unfold validCfg at hvc
    cases hy : cfg.y0 with
    | none =>
        rw [hy] at h hvc
        dsimp only at h
        cases h1 : evalList f cfg.x0 ⟨[], [], [], rng0, false⟩ with
        | error pe =>
            rw [h1] at h
            dsimp only at h
            simp only [Except.error.injEq, RunError.objectiveErr.injEq] at h
            obtain ⟨j, hj, hh, hc⟩ := (evalList_len f cfg.x0 ⟨[], [], [], rng0, false⟩).2 pe.1 pe.2 h1
            obtain ⟨he, hst⟩ := h
            subst hst
            simp only [expLen, hy]
            simp at hh
            omega
        | ok st1 =>
            rw [h1] at h
            dsimp only at h
            obtain ⟨hh1, hc1, hm1, hr1, hs1⟩ := (evalList_len f cfg.x0 ⟨[], [], [], rng0, false⟩).1 st1 h1
            simp at hh1
            cases h2 : randomPhase f sample cfg.n_random_starts st1 with
            | error pe =>
                rw [h2] at h
                dsimp only at h
                simp only [Except.error.injEq, RunError.objectiveErr.injEq] at h
                obtain ⟨j, hj, hh, hc⟩ := (randomPhase_len f sample cfg.n_random_starts st1).2 pe.1 pe.2 h2
                obtain ⟨he, hst⟩ := h
                subst hst
                simp only [expLen, hy]
                omega
            | ok st2 =>
                rw [h2] at h
                dsimp only at h
                obtain ⟨hh2, hc2, hm2, hr2, hs2⟩ := (randomPhase_len f sample cfg.n_random_starts st1).1 st2 h2
                cases h3 : guidedPhase f propose cb (guidedCount cfg) st2 with
                | error pe =>
                    rw [h3] at h
                    dsimp only at h
                    simp only [Except.error.injEq, RunError.objectiveErr.injEq] at h
                    obtain ⟨j, hj, hh, hc⟩ := guidedPhase_err_len f propose cb (guidedCount cfg) st2 pe.1 pe.2 h3
                    obtain ⟨he, hst⟩ := h
                    subst hst
                    have hgc : guidedCount cfg = cfg.n_calls - cfg.x0.length - cfg.n_random_starts := by
                      unfold guidedCount; rw [hy]
                    simp only [expLen, hy]
                    omega
                | ok st3 =>
                    rw [h3] at h
                    exact absurd h (by simp)
    | some ys =>
        rw [hy] at h hvc
        dsimp only at h
        cases h2 : randomPhase f sample cfg.n_random_starts
            ⟨List.zipWith Obs.mk cfg.x0 ys, [], [], rng0, false⟩ with
        | error pe =>
            rw [h2] at h
            dsimp only at h
            simp only [Except.error.injEq, RunError.objectiveErr.injEq] at h
            obtain ⟨j, hj, hh, hc⟩ := (randomPhase_len f sample cfg.n_random_starts
              ⟨List.zipWith Obs.mk cfg.x0 ys, [], [], rng0, false⟩).2 pe.1 pe.2 h2
            obtain ⟨he, hst⟩ := h
            subst hst
            simp only [expLen, hy]
            simp [List.length_zipWith, hvc.1] at hh
            omega
        | ok st2 =>
            rw [h2] at h
            dsimp only at h
            obtain ⟨hh2, hc2, hm2, hr2, hs2⟩ := (randomPhase_len f sample cfg.n_random_starts
              ⟨List.zipWith Obs.mk cfg.x0 ys, [], [], rng0, false⟩).1 st2 h2
            simp [List.length_zipWith, hvc.1] at hh2
            cases h3 : guidedPhase f propose cb (guidedCount cfg) st2 with
            | error pe =>
                rw [h3] at h
                dsimp only at h
                simp only [Except.error.injEq, RunError.objectiveErr.injEq] at h
                obtain ⟨j, hj, hh, hc⟩ := guidedPhase_err_len f propose cb (guidedCount cfg) st2 pe.1 pe.2 h3
                obtain ⟨he, hst⟩ := h
                subst hst
                have hgc : guidedCount cfg = cfg.n_calls - cfg.n_random_starts := by
                  unfold guidedCount; rw [hy]
                simp only [expLen, hy]
                omega
            | ok st3 =>
                rw [h3] at h
                exact absurd h (by simp)
  · rw [if_neg hvc] at h
    exact absurd h (by simp)

/-! ### Helper: sums of mapped divisions -/

theorem listSumDiv : ∀ (l : List ℚ) (c : ℚ), (l.map (fun w => w / c)).sum = l.sum / c := by
  intro l c
  induction l with
  | nil => simp
  | cons a l ih => simp [ih, add_div]

/-! ### Helpers for the driver claims -/

theorem zipWith_obs_points : ∀ (xs ys : List ℤ), xs.length ≤ ys.length →
    (List.zipWith Obs.mk xs ys).map Obs.point = xs := by
  intro xs
  induction xs with
  | nil => intro ys _; simp
  | cons x xs ih =>
      intro ys hle
      cases ys with
      | nil => simp at hle
      | cons y ys =>
          simp only [List.zipWith_cons_cons, List.map_cons]
          rw [ih ys (by simpa using hle)]

theorem zipWith_obs_values : ∀ (xs ys : List ℤ), ys.length ≤ xs.length →
    (List.zipWith Obs.mk xs ys).map Obs.value = ys := by
  intro xs
  induction xs with
  | nil =>
      intro ys hle
      cases ys with
      | nil => simp
      | cons y ys => simp at hle
  | cons x xs ih =>
      intro ys hle
      cases ys with
      | nil => simp
      | cons y ys =>
          simp only [List.zipWith_cons_cons, List.map_cons]
          rw [ih ys (by simpa using hle)]

theorem mkResult_best (st : RunState) (hne : st.hist ≠ []) :
    (mkResult st).fun_val ∈ (mkResult st).func_vals ∧
    (∀ v ∈ (mkResult st).func_vals, (mkResult st).fun_val ≤ v) ∧
    ((mkResult st).x, (mkResult st).fun_val) ∈
      (mkResult st).x_iters.zip (mkResult st).func_vals := by
  refine ⟨?_, ?_, ?_⟩
  · exact List.mem_map.mpr ⟨bestObs st.hist, bestObs_mem st.hist hne, rfl⟩
  · intro v hv
    obtain ⟨o, ho, rfl⟩ := List.mem_map.mp hv
    exact bestObs_le st.hist o ho
  · show ((bestObs st.hist).point, (bestObs st.hist).value) ∈
      (st.hist.map Obs.point).zip (st.hist.map Obs.value)
    rw [List.zip_map']
    exact List.mem_map.mpr ⟨bestObs st.hist, bestObs_mem st.hist hne, rfl⟩

/-! ### Claim theorems -/

/-- C2: for any fixed seed, deterministic objective and fixed
configuration, two runs of the driver produce identical results (hence
identical observation traces): the embedding threads every random draw
through the single explicit generator state, so the run is a function of
the seed and the configuration alone. -/
theorem C2_determinism (f : Objective) (sample : ℕ → ℤ)
    (propose : List Obs → ℕ → ℤ) (cb : List Obs → Bool) (cfg : Config)
    (s₁ s₂ : ℕ) (hs : s₁ = s₂) :
    base_minimize f sample propose cb cfg s₁ =
      base_minimize f sample propose cb cfg s₂ := by
  rw [hs]

/-- Witness for C2 at a concrete configuration and seed. -/
theorem C2_determinism_witness :
    (3 : ℕ) = 3 ∧
    base_minimize (pureObj id) (fun r => (r : ℤ)) (fun _ r => (r : ℤ))
        (fun _ => false) ⟨2, 1, [], none⟩ 3 =
      base_minimize (pureObj id) (fun r => (r : ℤ)) (fun _ r => (r : ℤ))
        (fun _ => false) ⟨2, 1, [], none⟩ 3 :=
  ⟨rfl, C2_determinism (pureObj id) (fun r => (r : ℤ)) (fun _ r => (r : ℤ))
    (fun _ => false) ⟨2, 1, [], none⟩ 3 3 rfl⟩

/-- C5: with `Phi` a strictly positive cdf and `z * Phi z + phi z`
strictly positive everywhere (the defining positivity of the standard
normal pair), the EI and PI scores are `0` exactly when the predictive
standard deviation is `0`; for nonzero `sigma` they are given by the
closed formulas with `z = (y_best - mu - xi) / sigma`. -/
theorem C5_ei_pi_zero_iff (Phi phi : ℚ → ℚ) (mu sigma y_best xi : ℚ)
    (hPhi : ∀ z, 0 < Phi z)
    (hpsi : ∀ z, 0 < z * Phi z + phi z) :
    (gaussian_ei Phi phi mu sigma y_best xi = 0 ↔ sigma = 0) ∧
    (gaussian_pi Phi mu sigma y_best xi = 0 ↔ sigma = 0) ∧
    (sigma ≠ 0 →
      gaussian_ei Phi phi mu sigma y_best xi =
        -((y_best - mu - xi) * Phi ((y_best - mu - xi) / sigma)) -
          sigma * phi ((y_best - mu - xi) / sigma) ∧
      gaussian_pi Phi mu sigma y_best xi =
        -Phi ((y_best - mu - xi) / sigma)) := by
  refine ⟨?_, ?_, ?_⟩
  · constructor
    · intro h0
      by_contra hs
      rw [gaussian_ei, if_neg hs] at h0
      have key : (y_best - mu - xi) * Phi ((y_best - mu - xi) / sigma) +
          sigma * phi ((y_best - mu - xi) / sigma) =
          sigma * (((y_best - mu - xi) / sigma) *
            Phi ((y_best - mu - xi) / sigma) + phi ((y_best - mu - xi) / sigma)) := by
        field_simp
        ring
      have hψ := hpsi ((y_best - mu - xi) / sigma)
      simp only at h0
      have h0' : (y_best - mu - xi) * Phi ((y_best - mu - xi) / sigma) +
          sigma * phi ((y_best - mu - xi) / sigma) = 0 := by linarith
      rw [key] at h0'
      exact mul_ne_zero hs (ne_of_gt hψ) h0'
    · intro hs
      rw [gaussian_ei, if_pos hs]
  · constructor
    · intro h0
      by_contra hs
      rw [gaussian_pi, if_neg hs] at h0
      have := hPhi ((y_best - mu - xi) / sigma)
      linarith [h0]
    · intro hs
      rw [gaussian_pi, if_pos hs]
  · intro hs
    constructor
    · rw [gaussian_ei, if_neg hs]
    · rw [gaussian_pi, if_neg hs]

/-- Witness for C5 with a concrete positive cdf/pdf pair and `sigma = 1`. -/
theorem C5_ei_pi_zero_iff_witness :
    (∀ z : ℚ, 0 < (fun _ : ℚ => (1 : ℚ)) z) ∧
    (∀ z : ℚ, 0 < z * (fun _ : ℚ => (1 : ℚ)) z + (fun w : ℚ => 1 + |w|) z) ∧
    ((gaussian_ei (fun _ => 1) (fun w => 1 + |w|) 0 1 0 0 = 0 ↔ (1 : ℚ) = 0) ∧
     (gaussian_pi (fun _ => 1) 0 1 0 0 = 0 ↔ (1 : ℚ) = 0) ∧
     ((1 : ℚ) ≠ 0 →
        gaussian_ei (fun _ => 1) (fun w => 1 + |w|) 0 1 0 0 =
          -((0 - 0 - 0) * (fun _ : ℚ => (1 : ℚ)) ((0 - 0 - 0) / 1)) -
            1 * (fun w : ℚ => 1 + |w|) ((0 - 0 - 0) / 1) ∧
        gaussian_pi (fun _ => 1) 0 1 0 0 =
          -(fun _ : ℚ => (1 : ℚ)) ((0 - 0 - 0) / 1))) := by
  have h1 : ∀ z : ℚ, 0 < (fun _ : ℚ => (1 : ℚ)) z := fun z => by norm_num
  have h2 : ∀ z : ℚ, 0 < z * (fun _ : ℚ => (1 : ℚ)) z + (fun w : ℚ => 1 + |w|) z := by
    intro z
    simp only
    rcases abs_cases z with ⟨ha, _⟩ | ⟨ha, _⟩ <;> rw [ha] <;> linarith
  exact ⟨h1, h2, C5_ei_pi_zero_iff (fun _ => 1) (fun w => 1 + |w|) 0 1 0 0 h1 h2⟩

/-- C6: under the HEDGE strategy the gain vector starts all-zero with one
entry per base strategy, keeps its length across every `hedgeStep`, is
updated by subtracting each strategy's surrogate-predicted mean at its own
proposal, and the winner is drawn categorically with probabilities
`softmax (eta • gains)` — which form a probability vector (they sum to 1)
whenever the exponential is positive. -/
theorem C6_hedge_gains (E : ℚ → ℚ) (eta : ℚ) (mu : ℤ → ℚ)
    (hE : ∀ x, 0 < E x) :
    (∀ n, (initGains n).length = n ∧ ∀ q ∈ initGains n, q = 0) ∧
    (∀ (proposals : List ℤ) (gains : List ℚ) (u : ℚ),
      gains.length = proposals.length →
      ((hedgeStep E eta mu proposals gains u).2).length = gains.length) ∧
    (∀ (proposals : List ℤ) (gains : List ℚ) (u : ℚ),
      (hedgeStep E eta mu proposals gains u).2 =
        List.zipWith (fun g X => g - mu X) gains proposals) ∧
    (∀ (proposals : List ℤ) (gains : List ℚ) (u : ℚ),
      (hedgeStep E eta mu proposals gains u).1 =
        pickIndex (softmax E (gains.map (fun g => eta * g))) u) ∧
    (∀ xs : List ℚ, xs ≠ [] → (softmax E xs).sum = 1) := by
  refine ⟨?_, ?_, ?_, ?_, ?_⟩
  · intro n
    constructor
    · simp [initGains]
    · intro q hq
      exact List.eq_of_mem_replicate hq
  · intro proposals gains u hlen
    simp [hedgeStep, List.length_zipWith, hlen]
  · intro proposals gains u
    rfl
  · intro proposals gains u
    rfl
  · intro xs hxs
    have hpos : 0 < (xs.map E).sum := by
      apply List.sum_pos
      · intro a ha
        obtain ⟨x, _, rfl⟩ := List.mem_map.mp ha
        exact hE x
      · simpa using hxs
    rw [softmax, listSumDiv, div_self (ne_of_gt hpos)]

/-- Witness for C6 with the constant exponential and three strategies. -/
theorem C6_hedge_gains_witness :
    (∀ x : ℚ, 0 < (fun _ : ℚ => (1 : ℚ)) x) ∧
    ((∀ n, (initGains n).length = n ∧ ∀ q ∈ initGains n, q = 0) ∧
     (∀ (proposals : List ℤ) (gains : List ℚ) (u : ℚ),
       gains.length = proposals.length →
       ((hedgeStep (fun _ => 1) 1 (fun p => (p : ℚ)) proposals gains u).2).length = gains.length) ∧
     (∀ (proposals : List ℤ) (gains : List ℚ) (u : ℚ),
       (hedgeStep (fun _ => 1) 1 (fun p => (p : ℚ)) proposals gains u).2 =
         List.zipWith (fun (g : ℚ) (X : ℤ) => g - (X : ℚ)) gains proposals) ∧
     (∀ (proposals : List ℤ) (gains : List ℚ) (u : ℚ),
       (hedgeStep (fun _ => 1) 1 (fun p => (p : ℚ)) proposals gains u).1 =
         pickIndex (softmax (fun _ => 1) (gains.map (fun g => 1 * g))) u) ∧
     (∀ xs : List ℚ, xs ≠ [] → (softmax (fun _ => 1) xs).sum = 1)) := by
  have h1 : ∀ x : ℚ, 0 < (fun _ : ℚ => (1 : ℚ)) x := fun x => by norm_num
  exact ⟨h1, C6_hedge_gains (fun _ => 1) 1 (fun p => (p : ℚ)) h1⟩

/-- C7: whenever the space has at least one categorical dimension, the
acquisition optimizer (regardless of the selected backend) silently
returns the pure-sampling answer, invokes the local gradient optimizer
zero times, and coincides with the sampling backend; being a total
function, it raises no error. -/
theorem C7_categorical_fallback (backend : AcqOptKind) (s : Space)
    (score : ℤ → ℚ) (cands : List ℤ) (localOpt : ℤ → ℤ) (nRestarts : ℕ)
    (hcat : s.hasCategorical = true) :
    run_acq_optimizer backend s score cands localOpt nRestarts =
      (argminBy score cands, 0) ∧
    (run_acq_optimizer backend s score cands localOpt nRestarts).2 = 0 ∧
    run_acq_optimizer backend s score cands localOpt nRestarts =
      run_acq_optimizer AcqOptKind.sampling s score cands localOpt nRestarts := by
  have h1 : run_acq_optimizer backend s score cands localOpt nRestarts =
      (argminBy score cands, 0) := by
    rw [run_acq_optimizer, if_pos (Or.inr hcat)]
  have h2 : run_acq_optimizer AcqOptKind.sampling s score cands localOpt nRestarts =
      (argminBy score cands, 0) := by
    rw [run_acq_optimizer, if_pos (Or.inl rfl)]
  exact ⟨h1, by rw [h1], by rw [h1, h2]⟩

/-- Witness for C7: a mixed real/categorical space with the
gradient-restart backend selected explicitly. -/
theorem C7_categorical_fallback_witness :
    Space.hasCategorical ⟨[Dim.real, Dim.categorical]⟩ = true ∧
    (run_acq_optimizer AcqOptKind.lbfgs ⟨[Dim.real, Dim.categorical]⟩
        (fun p => (p : ℚ)) [3, 1, 2] (fun p => p - 10) 2 =
      (argminBy (fun p => (p : ℚ)) [3, 1, 2], 0) ∧
     (run_acq_optimizer AcqOptKind.lbfgs ⟨[Dim.real, Dim.categorical]⟩
        (fun p => (p : ℚ)) [3, 1, 2] (fun p => p - 10) 2).2 = 0 ∧
     run_acq_optimizer AcqOptKind.lbfgs ⟨[Dim.real, Dim.categorical]⟩
        (fun p => (p : ℚ)) [3, 1, 2] (fun p => p - 10) 2 =
       run_acq_optimizer AcqOptKind.sampling ⟨[Dim.real, Dim.categorical]⟩
        (fun p => (p : ℚ)) [3, 1, 2] (fun p => p - 10) 2) :=
  ⟨by decide, C7_categorical_fallback AcqOptKind.lbfgs ⟨[Dim.real, Dim.categorical]⟩
    (fun p => (p : ℚ)) [3, 1, 2] (fun p => p - 10) 2 (by decide)⟩

/-- C10: with `base_estimator = None`, `gp_minimize` makes exactly one
`randint` draw before delegating, so `base_minimize` receives the advanced
generator state `s + 1`; with an estimator supplied it makes no draw and
the state is `s` — the two entering states always differ, and hence so
does any nonempty sequence of subsequent draws. -/
theorem C10_default_estimator_draw (s : ℕ) (est : Estimator) :
    (gp_minimize none s).2.1 = s + 1 ∧
    (gp_minimize none s).2.2 = 1 ∧
    (gp_minimize (some est) s).2.1 = s ∧
    (gp_minimize (some est) s).2.2 = 0 ∧
    (gp_minimize none s).2.1 ≠ (gp_minimize (some est) s).2.1 ∧
    (∀ n, 1 ≤ n →
      drawSeq (gp_minimize none s).2.1 n ≠ drawSeq (gp_minimize (some est) s).2.1 n) := by
  refine ⟨rfl, rfl, rfl, rfl, by simp [gp_minimize, randint, check_random_state], ?_⟩
  intro n hn heq
  simp only [gp_minimize, randint, check_random_state, drawSeq] at heq
  cases n with
  | zero => exact absurd hn (by omega)
  | succ m =>
      rw [List.range'_succ, List.range'_succ] at heq
      have := (List.cons.injEq _ _ _ _).mp heq
      omega

/-- Witness for C10 at seed 0 with a concrete supplied estimator. -/
theorem C10_default_estimator_draw_witness :
    (gp_minimize none 0).2.1 = 0 + 1 ∧
    (gp_minimize none 0).2.2 = 1 ∧
    (gp_minimize (some ⟨5⟩) 0).2.1 = 0 ∧
    (gp_minimize (some ⟨5⟩) 0).2.2 = 0 ∧
    (gp_minimize none 0).2.1 ≠ (gp_minimize (some ⟨5⟩) 0).2.1 ∧
    (∀ n, 1 ≤ n →
      drawSeq (gp_minimize none 0).2.1 n ≠ drawSeq (gp_minimize (some ⟨5⟩) 0).2.1 n) :=
  C10_default_estimator_draw 0 ⟨5⟩

/-- The amended length property of a run: with a never-failing objective
and a never-stopping callback the history reaches exactly `expLen cfg`
(`n_calls`, plus `len x0` when `y0` is given); with an arbitrary callback
the run still succeeds with history length at most `expLen cfg`; and when
an objective error aborts the run, the partial history is strictly
shorter than `expLen cfg`. -/
def C1LenProp (g : ℤ → ℤ) (sample : ℕ → ℤ) (propose : List Obs → ℕ → ℤ)
    (cfg : Config) (rng0 : ℕ) : Prop :=
  (∃ res, base_minimize (pureObj g) sample propose (fun _ => false) cfg rng0 =
      Except.ok res ∧ res.stopped = false ∧ res.x_iters.length = expLen cfg) ∧
  (∀ cb, ∃ res, base_minimize (pureObj g) sample propose cb cfg rng0 =
      Except.ok res ∧ res.x_iters.length ≤ expLen cfg) ∧
  (∀ (f : Objective) (cb : List Obs → Bool) (e : ℕ) (stE : RunState),
    base_minimize f sample propose cb cfg rng0 =
      Except.error (RunError.objectiveErr e stE) →
    stE.hist.length < expLen cfg)

/-- C1 (counterexample): a run with both `x0` and `y0` given
(`n_calls = 2`, `n_random_starts = 1`, `x0 = [5]`, `y0 = [3]`), a
never-failing objective and a never-stopping callback completes without
early stop or error, yet records 3 observations, not `n_calls = 2`:
the claim "the history has length exactly `n_calls`" fails. -/
theorem C1_history_length_counterexample :
    base_minimize (pureObj id) (fun r => (r : ℤ)) (fun _ r => (r : ℤ))
        (fun _ => false) ⟨2, 1, [5], some [3]⟩ 10 =
      Except.ok ⟨5, 3, [5, 10, 11], [3, 10, 11],
        [[⟨5, 3⟩, ⟨10, 10⟩]], 12, false, [10, 11]⟩ ∧
    ([5, 10, 11] : List ℤ).length ≠ 2 := by
  constructor
  · rfl
  · decide

/-- C1 (amended): for every valid configuration, never-failing objective
and never-stopping callback the recorded history has length exactly
`expLen cfg` — that is, `n_calls` when `y0` is absent and
`n_calls + len x0` when `y0` is given; with any callback the length is at
most `expLen cfg`; and if an objective error occurs the partial history is
strictly shorter than `expLen cfg`. -/
theorem C1_history_length_amended (g : ℤ → ℤ) (sample : ℕ → ℤ)
    (propose : List Obs → ℕ → ℤ) (cfg : Config) (rng0 : ℕ)
    (hv : validCfg cfg) : C1LenProp g sample propose cfg rng0 := by
  refine ⟨?_, ?_, ?_⟩
  · cases hy : cfg.y0 with
    | none =>
        have hv' : cfg.x0.length + cfg.n_random_starts ≤ cfg.n_calls := by
          unfold validCfg at hv; rw [hy] at hv; exact hv
        obtain ⟨ext, snaps, heq, hel, hsl, _⟩ :=
          base_minimize_pure_none g sample propose cfg rng0 hy hv'
        refine ⟨_, heq, rfl, ?_⟩
        have hgc : guidedCount cfg = cfg.n_calls - cfg.x0.length - cfg.n_random_starts := by
          unfold guidedCount; rw [hy]
        simp only [mkResult, expLen, hy]
        simp only [List.length_map, List.length_append, List.length_range']
        omega
    | some ys =>
        have hv' : ys.length = cfg.x0.length ∧ cfg.n_random_starts ≤ cfg.n_calls := by
          unfold validCfg at hv; rw [hy] at hv; exact hv
        obtain ⟨ext, snaps, heq, hel, hsl, _⟩ :=
          base_minimize_pure_some g sample propose cfg rng0 ys hy hv'.1 hv'.2
        refine ⟨_, heq, rfl, ?_⟩
        have hgc : guidedCount cfg = cfg.n_calls - cfg.n_random_starts := by
          unfold guidedCount; rw [hy]
        simp only [mkResult, expLen, hy]
        simp only [List.length_map, List.length_append, List.length_range',
          List.length_zipWith]
        omega
  · intro cb
    exact base_minimize_pure_le g sample propose cb cfg rng0 hv
  · intro f cb e stE h
    exact base_minimize_err_len f sample propose cb cfg rng0 e stE h

/-- Witness for the amended C1 at a concrete valid configuration. -/
theorem C1_history_length_amended_witness :
    validCfg ⟨4, 1, [5], none⟩ ∧
    C1LenProp id (fun r => (r : ℤ)) (fun _ r => (r : ℤ)) ⟨4, 1, [5], none⟩ 10 :=
  ⟨by decide, C1_history_length_amended id (fun r => (r : ℤ)) (fun _ r => (r : ℤ))
    ⟨4, 1, [5], none⟩ 10 (by decide)⟩

/-- The initial-point property of a run with `x0` given and `y0` absent:
the first `len x0` recorded points are `x0` in order with their objective
values, the next `n_random_starts` points are the sampled random points,
every observation came from an objective call (the call log is the
trace), the trace has length `n_calls`, and
`n_calls - len x0 - n_random_starts` surrogate-guided evaluations (one
model snapshot each) remain. -/
def C3Prop (g : ℤ → ℤ) (sample : ℕ → ℤ) (propose : List Obs → ℕ → ℤ)
    (cfg : Config) (rng0 : ℕ) : Prop :=
  ∃ res, base_minimize (pureObj g) sample propose (fun _ => false) cfg rng0 =
      Except.ok res ∧
    res.x_iters.take cfg.x0.length = cfg.x0 ∧
    res.func_vals.take cfg.x0.length = cfg.x0.map g ∧
    (res.x_iters.drop cfg.x0.length).take cfg.n_random_starts =
      (List.range' rng0 cfg.n_random_starts).map sample ∧
    res.call_log = res.x_iters ∧
    res.x_iters.length = cfg.n_calls ∧
    res.models.length = cfg.n_calls - cfg.x0.length - cfg.n_random_starts

/-- C3: when `x0` is given and `y0` absent, the run first evaluates every
point of `x0` in order (so the first `len x0` recorded observations'
points equal `x0` in order), then the `n_random_starts` random points,
leaving `n_calls - len x0 - n_random_starts` guided evaluations. -/
theorem C3_x0_evaluated_first (g : ℤ → ℤ) (sample : ℕ → ℤ)
    (propose : List Obs → ℕ → ℤ) (cfg : Config) (rng0 : ℕ)
    (hy : cfg.y0 = none)
    (hv : cfg.x0.length + cfg.n_random_starts ≤ cfg.n_calls) :
    C3Prop g sample propose cfg rng0 := by
  obtain ⟨ext, snaps, heq, hel, hsl, _⟩ :=
    base_minimize_pure_none g sample propose cfg rng0 hy hv
  have hgc : guidedCount cfg = cfg.n_calls - cfg.x0.length - cfg.n_random_starts := by
    unfold guidedCount; rw [hy]
  refine ⟨_, heq, ?_⟩
  have hxit : (mkResult
      ⟨(cfg.x0.map (fun p => ⟨p, g p⟩) ++
          (List.range' rng0 cfg.n_random_starts).map
            (fun r => ⟨sample r, g (sample r)⟩)) ++ ext,
        (cfg.x0 ++ (List.range' rng0 cfg.n_random_starts).map sample) ++
          ext.map Obs.point,
        snaps, rng0 + cfg.n_random_starts + guidedCount cfg, false⟩).x_iters =
      cfg.x0 ++ (((List.range' rng0 cfg.n_random_starts).map sample) ++
        ext.map Obs.point) := by
    simp [mkResult, List.map_map, Function.comp_def, List.append_assoc]
  have hfv : (mkResult
      ⟨(cfg.x0.map (fun p => ⟨p, g p⟩) ++
          (List.range' rng0 cfg.n_random_starts).map
            (fun r => ⟨sample r, g (sample r)⟩)) ++ ext,
        (cfg.x0 ++ (List.range' rng0 cfg.n_random_starts).map sample) ++
          ext.map Obs.point,
        snaps, rng0 + cfg.n_random_starts + guidedCount cfg, false⟩).func_vals =
      cfg.x0.map g ++ (((List.range' rng0 cfg.n_random_starts).map
        (fun r => g (sample r))) ++ ext.map Obs.value) := by
    simp [mkResult, List.map_map, Function.comp_def, List.append_assoc]
  refine ⟨?_, ?_, ?_, ?_, ?_, ?_⟩
  · rw [hxit]
    exact List.take_left' rfl
  · rw [hfv]
    exact List.take_left' (by simp)
  · rw [hxit, List.drop_left' rfl]
    exact List.take_left' (by simp)
  · rw [hxit]
    simp [mkResult, List.append_assoc]
  · rw [hxit]
    simp only [List.length_append, List.length_map, List.length_range']
    omega
  · show snaps.length = _
    omega

/-- The initial-point property of a run with both `x0` and `y0` given:
the `(x0, y0)` pairs appear first in the trace, the objective is invoked
exactly on the points recorded after them (never to record `x0`), exactly
`n_calls` objective calls are made, the first `n_random_starts` of them
are the sampled random points, and `n_calls - n_random_starts` guided
evaluations (one model snapshot each) follow. -/
def C4Prop (g : ℤ → ℤ) (sample : ℕ → ℤ) (propose : List Obs → ℕ → ℤ)
    (cfg : Config) (rng0 : ℕ) (ys : List ℤ) : Prop :=
  ∃ res, base_minimize (pureObj g) sample propose (fun _ => false) cfg rng0 =
      Except.ok res ∧
    res.x_iters.take cfg.x0.length = cfg.x0 ∧
    res.func_vals.take cfg.x0.length = ys ∧
    res.call_log = res.x_iters.drop cfg.x0.length ∧
    res.call_log.length = cfg.n_calls ∧
    res.call_log.take cfg.n_random_starts =
      (List.range' rng0 cfg.n_random_starts).map sample ∧
    res.models.length = cfg.n_calls - cfg.n_random_starts

/-- C4: when both `x0` and `y0` are given, the pairs are recorded without
any objective call, then `n_random_starts` random points are drawn and
evaluated, and exactly `n_calls - n_random_starts` surrogate-guided
evaluations follow. -/
theorem C4_x0_y0_recorded_without_calls (g : ℤ → ℤ) (sample : ℕ → ℤ)
    (propose : List Obs → ℕ → ℤ) (cfg : Config) (rng0 : ℕ) (ys : List ℤ)
    (hy : cfg.y0 = some ys) (hlen : ys.length = cfg.x0.length)
    (hv : cfg.n_random_starts ≤ cfg.n_calls) :
    C4Prop g sample propose cfg rng0 ys := by
  obtain ⟨ext, snaps, heq, hel, hsl, _⟩ :=
    base_minimize_pure_some g sample propose cfg rng0 ys hy hlen hv
  have hgc : guidedCount cfg = cfg.n_calls - cfg.n_random_starts := by
    unfold guidedCount; rw [hy]
  have hzp : (List.zipWith Obs.mk cfg.x0 ys).map Obs.point = cfg.x0 :=
    zipWith_obs_points cfg.x0 ys (le_of_eq hlen.symm)
  have hzv : (List.zipWith Obs.mk cfg.x0 ys).map Obs.value = ys :=
    zipWith_obs_values cfg.x0 ys (le_of_eq hlen)
  refine ⟨_, heq, ?_⟩
  have hxit : (mkResult
      ⟨(List.zipWith Obs.mk cfg.x0 ys ++
          (List.range' rng0 cfg.n_random_starts).map
            (fun r => ⟨sample r, g (sample r)⟩)) ++ ext,
        ((List.range' rng0 cfg.n_random_starts).map sample) ++
          ext.map Obs.point,
        snaps, rng0 + cfg.n_random_starts + guidedCount cfg, false⟩).x_iters =
      cfg.x0 ++ (((List.range' rng0 cfg.n_random_starts).map sample) ++
        ext.map Obs.point) := by
    simp [mkResult, List.map_append, List.map_map, Function.comp_def,
      List.append_assoc, hzp]
  have hfv : (mkResult
      ⟨(List.zipWith Obs.mk cfg.x0 ys ++
          (List.range' rng0 cfg.n_random_starts).map
            (fun r => ⟨sample r, g (sample r)⟩)) ++ ext,
        ((List.range' rng0 cfg.n_random_starts).map sample) ++
          ext.map Obs.point,
        snaps, rng0 + cfg.n_random_starts + guidedCount cfg, false⟩).func_vals =
      ys ++ (((List.range' rng0 cfg.n_random_starts).map
        (fun r => g (sample r))) ++ ext.map Obs.value) := by
    simp [mkResult, List.map_append, List.map_map, Function.comp_def,
      List.append_assoc, hzv]
  refine ⟨?_, ?_, ?_, ?_, ?_, ?_⟩
  · rw [hxit]
    exact List.take_left' rfl
  · rw [hfv]
    exact List.take_left' hlen
  · rw [hxit, List.drop_left' rfl]
    rfl
  · show ((List.range' rng0 cfg.n_random_starts).map sample ++
      ext.map Obs.point).length = cfg.n_calls
    simp only [List.length_append, List.length_map, List.length_range']
    omega
  · show ((List.range' rng0 cfg.n_random_starts).map sample ++
      ext.map Obs.point).take cfg.n_random_starts = _
    exact List.take_left' (by simp)
  · show snaps.length = _
    omega

/-- Witness for C3 at a concrete configuration. -/
theorem C3_x0_evaluated_first_witness :
    (⟨4, 1, [5], none⟩ : Config).y0 = none ∧
    (⟨4, 1, [5], none⟩ : Config).x0.length +
      (⟨4, 1, [5], none⟩ : Config).n_random_starts ≤
      (⟨4, 1, [5], none⟩ : Config).n_calls ∧
    C3Prop id (fun r => (r : ℤ)) (fun _ r => (r : ℤ)) ⟨4, 1, [5], none⟩ 10 :=
  ⟨rfl, by decide, C3_x0_evaluated_first id (fun r => (r : ℤ)) (fun _ r => (r : ℤ))
    ⟨4, 1, [5], none⟩ 10 rfl (by decide)⟩

/-- Witness for C4 at a concrete configuration. -/
theorem C4_x0_y0_recorded_without_calls_witness :
    (⟨2, 1, [5], some [3]⟩ : Config).y0 = some [3] ∧
    ([3] : List ℤ).length = (⟨2, 1, [5], some [3]⟩ : Config).x0.length ∧
    (⟨2, 1, [5], some [3]⟩ : Config).n_random_starts ≤
      (⟨2, 1, [5], some [3]⟩ : Config).n_calls ∧
    C4Prop id (fun r => (r : ℤ)) (fun _ r => (r : ℤ)) ⟨2, 1, [5], some [3]⟩ 10 [3] :=
  ⟨rfl, by decide, by decide,
    C4_x0_y0_recorded_without_calls id (fun r => (r : ℤ)) (fun _ r => (r : ℤ))
      ⟨2, 1, [5], some [3]⟩ 10 [3] rfl (by decide) (by decide)⟩

/-- The pre-recorded observations of a configuration: none when `y0` is
absent, the `(x0, y0)` pairs (recorded without an objective call) when
`y0` is given. -/
def preRecorded (cfg : Config) : List Obs :=
  match cfg.y0 with
  | none => []
  | some ys => List.zipWith Obs.mk cfg.x0 ys

/-- Consistency of the partial state attached to a propagated objective
failure, over the pre-recorded prefix `base`: the history is `base`
followed by the successfully evaluated observations; the call log is
exactly those evaluated points followed by the single failing point whose
error is the one propagated; every evaluated observation is complete and
successful; with the n-th call failing, exactly `n - 1` evaluated
observations (on top of the `base.length` pre-recorded ones) are
recorded. -/
def C8Prop (f : Objective) (e : ℕ) (base : List Obs) (stE : RunState) : Prop :=
  ∃ tail p, stE.hist = base ++ tail ∧
    stE.calls = tail.map Obs.point ++ [p] ∧
    f p = Except.error e ∧
    (∀ o ∈ tail, f o.point = Except.ok o.value) ∧
    stE.calls.length = tail.length + 1 ∧
    stE.hist.length = base.length + tail.length

theorem errState_C8 (f : Objective) (e : ℕ) (base : List Obs) (stE : RunState)
    (h : errState f e base stE) : C8Prop f e base stE := by
  obtain ⟨tail, p, hh, hc, hfp, hvalid⟩ := h
  exact ⟨tail, p, hh, hc, hfp, hvalid, by simp [hc], by simp [hh]⟩

/-- C8 (counterexample): with both `x0` and `y0` given
(`n_calls = 2`, `n_random_starts = 1`, `x0 = [5]`, `y0 = [3]`), the
objective raises on its 1st evaluation (the call log has length 1), yet
the partial history holds 1 observation — the pre-recorded `(5, 3)`
pair — not n - 1 = 0: the claim's "exactly n-1 observations are
recorded" fails. -/
theorem C8_observation_count_counterexample :
    base_minimize (fun p => if p = 10 then Except.error 7 else Except.ok p)
        (fun r => (r : ℤ)) (fun _ r => (r : ℤ)) (fun _ => false)
        ⟨2, 1, [5], some [3]⟩ 10 =
      Except.error (RunError.objectiveErr 7 ⟨[⟨5, 3⟩], [10], [], 11, false⟩) ∧
    (⟨[⟨5, 3⟩], [10], [], 11, false⟩ : RunState).calls.length = 1 ∧
    (⟨[⟨5, 3⟩], [10], [], 11, false⟩ : RunState).hist.length ≠ 1 - 1 := by
  refine ⟨rfl, rfl, by decide⟩

/-- C8 (amended): for every configuration, if the objective raises on the
n-th evaluation the error propagates to the caller as the run's result,
and the attached history is consistent up to the last successful
observation: it consists of the pre-recorded `(x0, y0)` pairs (when `y0`
is given; nothing otherwise) followed by exactly the n-1 successful
evaluated observations — each complete, none partial — with the failing
point logged as the n-th and final call. -/
theorem C8_error_no_partial_obs (f : Objective) (sample : ℕ → ℤ)
    (propose : List Obs → ℕ → ℤ) (cb : List Obs → Bool) (cfg : Config)
    (rng0 : ℕ) (e : ℕ) (stE : RunState)
    (h : base_minimize f sample propose cb cfg rng0 =
      Except.error (RunError.objectiveErr e stE)) :
    C8Prop f e (preRecorded cfg) stE := by
  apply errState_C8
  unfold base_minimize at h
  by_cases hvc : validCfg cfg
  · rw [if_pos hvc] at h
    cases hy : cfg.y0 with
    | none =>
        have hbase : preRecorded cfg = [] := by unfold preRecorded; rw [hy]
        rw [hbase]
        rw [hy] at h
        dsimp only at h
        have hg0 : goodState f [] ⟨[], [], [], rng0, false⟩ := by
          refine ⟨[], by simp, rfl, ?_⟩
          intro o ho
          simp at ho
        cases h1 : evalList f cfg.x0 ⟨[], [], [], rng0, false⟩ with
        | error pe =>
            rw [h1] at h
            dsimp only at h
            simp only [Except.error.injEq, RunError.objectiveErr.injEq] at h
            obtain ⟨he, hst⟩ := h
            subst hst
            subst he
            exact (evalList_good f [] cfg.x0 _ hg0).2 pe.1 pe.2 h1
        | ok st1 =>
            have hg1 := (evalList_good f [] cfg.x0 _ hg0).1 st1 h1
            rw [h1] at h
            dsimp only at h
            cases h2 : randomPhase f sample cfg.n_random_starts st1 with
            | error pe =>
                rw [h2] at h
                dsimp only at h
                simp only [Except.error.injEq, RunError.objectiveErr.injEq] at h
                obtain ⟨he, hst⟩ := h
                subst hst
                subst he
                exact (randomPhase_good f sample [] cfg.n_random_starts st1 hg1).2 pe.1 pe.2 h2
            | ok st2 =>
                have hg2 := (randomPhase_good f sample [] cfg.n_random_starts st1 hg1).1 st2 h2
                rw [h2] at h
                dsimp only at h
                cases h3 : guidedPhase f propose cb (guidedCount cfg) st2 with
                | error pe =>
                    rw [h3] at h
                    dsimp only at h
                    simp only [Except.error.injEq, RunError.objectiveErr.injEq] at h
                    obtain ⟨he, hst⟩ := h
                    subst hst
                    subst he
                    exact (guidedPhase_good f propose cb [] (guidedCount cfg) st2 hg2).2 pe.1 pe.2 h3
                | ok st3 =>
                    rw [h3] at h
                    exact absurd h (by simp)
    | some ys =>
        have hbase : preRecorded cfg = List.zipWith Obs.mk cfg.x0 ys := by
          unfold preRecorded; rw [hy]
        rw [hbase]
        rw [hy] at h
        dsimp only at h
        have hg1 : goodState f (List.zipWith Obs.mk cfg.x0 ys)
            ⟨List.zipWith Obs.mk cfg.x0 ys, [], [], rng0, false⟩ := by
          refine ⟨[], by simp, rfl, ?_⟩
          intro o ho
          simp at ho
        cases h2 : randomPhase f sample cfg.n_random_starts
            ⟨List.zipWith Obs.mk cfg.x0 ys, [], [], rng0, false⟩ with
        | error pe =>
            rw [h2] at h
            dsimp only at h
            simp only [Except.error.injEq, RunError.objectiveErr.injEq] at h
            obtain ⟨he, hst⟩ := h
            subst hst
            subst he
            exact (randomPhase_good f sample (List.zipWith Obs.mk cfg.x0 ys)
              cfg.n_random_starts _ hg1).2 pe.1 pe.2 h2
        | ok st2 =>
            have hg2 := (randomPhase_good f sample (List.zipWith Obs.mk cfg.x0 ys)
              cfg.n_random_starts _ hg1).1 st2 h2
            rw [h2] at h
            dsimp only at h
            cases h3 : guidedPhase f propose cb (guidedCount cfg) st2 with
            | error pe =>
                rw [h3] at h
                dsimp only at h
                simp only [Except.error.injEq, RunError.objectiveErr.injEq] at h
                obtain ⟨he, hst⟩ := h
                subst hst
                subst he
                exact (guidedPhase_good f propose cb (List.zipWith Obs.mk cfg.x0 ys)
                  (guidedCount cfg) st2 hg2).2 pe.1 pe.2 h3
            | ok st3 =>
                rw [h3] at h
                exact absurd h (by simp)
  · rw [if_neg hvc] at h
    exact absurd h (by simp)

/-- Witness for the amended C8: same failing run as the counterexample —
`y0` given, the objective fails on its 1st evaluation, the partial history
is the pre-recorded pair followed by 0 evaluated observations. -/
theorem C8_error_no_partial_obs_witness :
    base_minimize (fun p => if p = 10 then Except.error 7 else Except.ok p)
        (fun r => (r : ℤ)) (fun _ r => (r : ℤ)) (fun _ => false)
        ⟨2, 1, [5], some [3]⟩ 10 =
      Except.error (RunError.objectiveErr 7 ⟨[⟨5, 3⟩], [10], [], 11, false⟩) ∧
    C8Prop (fun p => if p = 10 then Except.error 7 else Except.ok p) 7
      (preRecorded ⟨2, 1, [5], some [3]⟩) ⟨[⟨5, 3⟩], [10], [], 11, false⟩ :=
  ⟨rfl, C8_error_no_partial_obs (fun p => if p = 10 then Except.error 7 else Except.ok p)
    (fun r => (r : ℤ)) (fun _ r => (r : ℤ)) (fun _ => false)
    ⟨2, 1, [5], some [3]⟩ 10 7 ⟨[⟨5, 3⟩], [10], [], 11, false⟩ rfl⟩

/-- The contents of the result of a completed run: the best value is the
minimum of the recorded values and is attained at the paired best point;
the trace of points and values has full length in evaluation order; one
surrogate snapshot per guided iteration; and the final generator state is
the initial one advanced by every draw of the run. -/
def C9Prop (g : ℤ → ℤ) (sample : ℕ → ℤ) (propose : List Obs → ℕ → ℤ)
    (cfg : Config) (rng0 : ℕ) : Prop :=
  ∃ res, base_minimize (pureObj g) sample propose (fun _ => false) cfg rng0 =
      Except.ok res ∧
    res.fun_val ∈ res.func_vals ∧
    (∀ v ∈ res.func_vals, res.fun_val ≤ v) ∧
    (res.x, res.fun_val) ∈ res.x_iters.zip res.func_vals ∧
    res.x_iters.length = expLen cfg ∧
    res.func_vals.length = expLen cfg ∧
    res.models.length = guidedCount cfg ∧
    res.rng_final = rng0 + cfg.n_random_starts + guidedCount cfg ∧
    res.stopped = false

/-- C9: every completed run's result exposes the best point with the best
(minimal) value, the full observation trace in evaluation order, one
surrogate snapshot per guided iteration, and the final random-generator
state. -/
theorem C9_result_contents (g : ℤ → ℤ) (sample : ℕ → ℤ)
    (propose : List Obs → ℕ → ℤ) (cfg : Config) (rng0 : ℕ)
    (hv : validCfg cfg) (hpos : 1 ≤ cfg.n_calls) :
    C9Prop g sample propose cfg rng0 := by
  unfold validCfg at hv
  cases hy : cfg.y0 with
  | none =>
      rw [hy] at hv
      obtain ⟨ext, snaps, heq, hel, hsl, _⟩ :=
        base_minimize_pure_none g sample propose cfg rng0 hy hv
      have hgc : guidedCount cfg = cfg.n_calls - cfg.x0.length - cfg.n_random_starts := by
        unfold guidedCount; rw [hy]
      refine ⟨_, heq, ?_⟩
      have hlenH : ((cfg.x0.map (fun p => (⟨p, g p⟩ : Obs)) ++
          (List.range' rng0 cfg.n_random_starts).map
            (fun r => (⟨sample r, g (sample r)⟩ : Obs))) ++ ext).length = expLen cfg := by
        simp only [expLen, hy, List.length_append, List.length_map, List.length_range']
        omega
      have hne : (cfg.x0.map (fun p => (⟨p, g p⟩ : Obs)) ++
          (List.range' rng0 cfg.n_random_starts).map
            (fun r => (⟨sample r, g (sample r)⟩ : Obs))) ++ ext ≠ [] := by
        apply List.length_pos.mp
        rw [hlenH]
        simp only [expLen, hy]
        omega
      obtain ⟨hb1, hb2, hb3⟩ := mkResult_best
        ⟨(cfg.x0.map (fun p => (⟨p, g p⟩ : Obs)) ++
            (List.range' rng0 cfg.n_random_starts).map
              (fun r => (⟨sample r, g (sample r)⟩ : Obs))) ++ ext,
          (cfg.x0 ++ (List.range' rng0 cfg.n_random_starts).map sample) ++
            ext.map Obs.point,
          snaps, rng0 + cfg.n_random_starts + guidedCount cfg, false⟩ hne
      refine ⟨hb1, hb2, hb3, ?_, ?_, hsl, rfl, rfl⟩
      · simp only [mkResult]
        rw [List.length_map, hlenH]
      · simp only [mkResult]
        rw [List.length_map, hlenH]
  | some ys =>
      rw [hy] at hv
      obtain ⟨ext, snaps, heq, hel, hsl, _⟩ :=
        base_minimize_pure_some g sample propose cfg rng0 ys hy hv.1 hv.2
      have hgc : guidedCount cfg = cfg.n_calls - cfg.n_random_starts := by
        unfold guidedCount; rw [hy]
      refine ⟨_, heq, ?_⟩
      have hlenH : ((List.zipWith Obs.mk cfg.x0 ys ++
          (List.range' rng0 cfg.n_random_starts).map
            (fun r => (⟨sample r, g (sample r)⟩ : Obs))) ++ ext).length = expLen cfg := by
        simp only [expLen, hy, List.length_append, List.length_map,
          List.length_range', List.length_zipWith]
        omega
      have hne : (List.zipWith Obs.mk cfg.x0 ys ++
          (List.range' rng0 cfg.n_random_starts).map
            (fun r => (⟨sample r, g (sample r)⟩ : Obs))) ++ ext ≠ [] := by
        apply List.length_pos.mp
        rw [hlenH]
        simp only [expLen, hy]
        omega
      obtain ⟨hb1, hb2, hb3⟩ := mkResult_best
        ⟨(List.zipWith Obs.mk cfg.x0 ys ++
            (List.range' rng0 cfg.n_random_starts).map
              (fun r => (⟨sample r, g (sample r)⟩ : Obs))) ++ ext,
          ((List.range' rng0 cfg.n_random_starts).map sample) ++
            ext.map Obs.point,
          snaps, rng0 + cfg.n_random_starts + guidedCount cfg, false⟩ hne
      refine ⟨hb1, hb2, hb3, ?_, ?_, hsl, rfl, rfl⟩
      · simp only [mkResult]
        rw [List.length_map, hlenH]
      · simp only [mkResult]
        rw [List.length_map, hlenH]

/-- Witness for C9 at a concrete valid configuration. -/
theorem C9_result_contents_witness :
    validCfg ⟨4, 1, [5], none⟩ ∧ 1 ≤ (⟨4, 1, [5], none⟩ : Config).n_calls ∧
    C9Prop id (fun r => (r : ℤ)) (fun _ r => (r : ℤ)) ⟨4, 1, [5], none⟩ 10 :=
  ⟨by decide, by decide, C9_result_contents id (fun r => (r : ℤ)) (fun _ r => (r : ℤ))
    ⟨4, 1, [5], none⟩ 10 (by decide) (by decide)⟩

end ProcessOptimizer
